import Mathlib

/-!
# go-hackernoon: a verification development of `main.go`

The crawler of `main.go` fetches one seed page, turns the matched anchors into
`Task`s (`generateTasks`), hands them to a pool of workers (`pushToResult`) and
prints every `Result`. This file embeds the program in Lean and proves
properties of it.

Modelling conventions.
* A Go `string` is a list of runes, `Str := List Char`.
* The functions of Go's `strings` package that the program calls are written
  out after their documented behaviour (`TrimSpace`, `ReplaceAll`, `Contains`,
  `TrimSuffix`, `TrimPrefix`).
* `net/http` and `goquery` are collaborators outside the program; they are the
  fields of `Env`. A `goquery.Selection` is the ordered list of matched nodes,
  each with the two things the program reads: its `href` attribute and its text.
* `log.Fatal` ends the process; a function that may call it returns the
  message in `Except.error`.
-/

namespace HackerNoon

/-- A Go string, as its sequence of runes. -/
abbrev Str := List Char

/-! ## The `strings` package -/

/-- Go `unicode.IsSpace`: the Latin-1 spaces `\t \n \v \f \r`, space, U+0085,
U+00A0, and beyond Latin-1 the code points of the `White_Space` table. -/
def isSpace (r : Char) : Bool :=
  let n := r.toNat
  (0x09 ≤ n && n ≤ 0x0D) || n == 0x20 || n == 0x85 || n == 0xA0 || n == 0x1680 ||
  (0x2000 ≤ n && n ≤ 0x200A) || n == 0x2028 || n == 0x2029 || n == 0x202F ||
  n == 0x205F || n == 0x3000

/-- Go `strings.TrimLeftFunc`: drop the leading runes satisfying `f`. -/
def TrimLeftFunc (s : Str) (f : Char → Bool) : Str :=
  s.dropWhile f

/-- Go `strings.TrimRightFunc`: drop the trailing runes satisfying `f`. -/
def TrimRightFunc (s : Str) (f : Char → Bool) : Str :=
  (s.reverse.dropWhile f).reverse

/-- Go `strings.TrimFunc`: `TrimRightFunc(TrimLeftFunc(s, f), f)`. -/
def TrimFunc (s : Str) (f : Char → Bool) : Str :=
  TrimRightFunc (TrimLeftFunc s f) f

/-- Go `strings.TrimSpace`: all leading and trailing white space, as defined by
Unicode, removed. -/
def TrimSpace (s : Str) : Str :=
  TrimFunc s isSpace

/-- Go `strings.HasPrefix`. -/
def HasPrefix (s pre : Str) : Bool :=
  pre.isPrefixOf s

/-- Go `strings.HasSuffix`. -/
def HasSuffix (s suf : Str) : Bool :=
  suf.isSuffixOf s

/-- Go `strings.TrimPrefix`: `s` without the leading `pre`, or `s` itself when
it does not start with `pre`. -/
def TrimPrefix (s pre : Str) : Str :=
  if HasPrefix s pre then s.drop pre.length else s

/-- Go `strings.TrimSuffix`: `s` without the trailing `suf`, or `s` itself when
it does not end with `suf`. -/
def TrimSuffix (s suf : Str) : Str :=
  if HasSuffix s suf then s.take (s.length - suf.length) else s

/-- Go `strings.Contains`: `substr` occurs at some position of `s`. -/
def Contains : Str → Str → Bool
  | [], substr => HasPrefix [] substr
  | c :: cs, substr => HasPrefix (c :: cs) substr || Contains cs substr

/-- The loop of `strings.Replace` for a non-empty `old` and no limit: scan
left to right, and at every occurrence of `old` that does not overlap the
previous one write `new` and skip `old`. `skip` counts the runes of the
current occurrence still to be skipped. -/
def replaceFrom (old new : Str) : Str → Nat → Str
  | [], _ => []
  | _ :: cs, skip + 1 => replaceFrom old new cs skip
  | c :: cs, 0 =>
    if HasPrefix (c :: cs) old then new ++ replaceFrom old new cs (old.length - 1)
    else c :: replaceFrom old new cs 0

/-- Go `strings.ReplaceAll`: every non-overlapping occurrence of `old` replaced
by `new`; an empty `old` matches at the start and after every rune. -/
def ReplaceAll (s old new : Str) : Str :=
  if old = [] then new ++ s.flatMap (fun c => c :: new)
  else replaceFrom old new s 0

/-! ## `main.go` -/

/-- The record `type Task struct`: a link found on the seed page. -/
structure Task where
  Url : Str
  Title : Str
  deriving DecidableEq

/-- The record `type Result struct`: a fetched task with its description. -/
structure Result where
  Url : Str
  Title : Str
  Description : Str
  deriving DecidableEq

/-- The function `cleanText(txt string) string` of `main.go`. -/
def cleanText (txt : Str) : Str :=
  let txt := TrimSpace txt
  let txt := ReplaceAll txt "\n".toList " ".toList
  txt

/-- One matched node of a `goquery.Selection`, with what the program reads
from it: `s.Attr("href")` (the value, and whether the attribute is present)
and `s.Text()`. -/
structure Node where
  href : Option Str
  text : Str
  deriving DecidableEq

/-- A `goquery.Selection`: the matched nodes in document order. -/
abbrev Selection := List Node

/-- The method `Selection.Text()`: the combined text of the matched nodes. -/
def Selection.Text (sel : Selection) : Str :=
  sel.flatMap (fun s => s.text)

/-- An `http.Response`, with the fields `fetchRequest` reads. -/
structure Response where
  StatusCode : Nat
  Status : Str
  Body : Str
  deriving DecidableEq

/-- The constant `http.StatusOK`. -/
def StatusOK : Nat := 200

/-- The constant `http.StatusTooManyRequests`. -/
def StatusTooManyRequests : Nat := 429

/-- The collaborators of `main.go`: `http.Get` (a response, or the message
of the transport error), `goquery.NewDocumentFromReader` (a document, or the
message of the parse error) and `Document.Find`. -/
structure Env (Doc : Type) where
  Get : Str → Except Str Response
  NewDocumentFromReader : Str → Except Str Doc
  Find : Doc → Str → Selection

/-- The function `fetchRequest(url, title)` of `main.go`; `fmt.Errorf` builds
the message of the returned error. -/
def fetchRequest {Doc : Type} (env : Env Doc) (url title : Str) : Except Str Selection :=
  match env.Get url with
  | .error err => .error ("could not get request ".toList ++ url ++ ": ".toList ++ err)
  | .ok resp =>
    if resp.StatusCode ≠ StatusOK then
      if resp.StatusCode = StatusTooManyRequests then
        .error "too many requests".toList
      else
        .error ("bad response from server: ".toList ++ resp.Status)
    else
      match env.NewDocumentFromReader resp.Body with
      | .error err => .error ("could not parse response body: ".toList ++ err)
      | .ok doc => .ok (env.Find doc title)

/-- The loop `selections.Each(func ...)` of `generateTasks`, with the Tasks it
sends on the task channel, in order. The closure assigns to the captured
variable `url`, so `url` is threaded from one node to the next. -/
def eachNode (url : Str) : Selection → List Task
  | [] => []
  | s :: rest =>
    match s.href with
    | none => eachNode url rest
    | some link =>
      let txt := cleanText s.text
      if !Contains link "://".toList then
        let url := TrimSuffix url "/".toList
        let link := TrimPrefix link "/".toList
        let link := url ++ "/".toList ++ link
        { Url := link, Title := txt } :: eachNode url rest
      else
        { Url := link, Title := txt } :: eachNode url rest

/-- The function `generateTasks(url, title, tasks)` of `main.go`: the message
passed to `log.Fatal`, or the Tasks sent before the channel is closed. -/
def generateTasks {Doc : Type} (env : Env Doc) (url title : Str) : Except Str (List Task) :=
  match fetchRequest env url title with
  | .error err => .error err
  | .ok selections => .ok (eachNode url selections)

/-- The body of the loop of `pushToResult` for one received Task: the message
passed to `log.Fatal`, or the Result sent on the result channel. -/
def processTask {Doc : Type} (env : Env Doc) (description : Str) (t : Task) :
    Except Str Result :=
  match fetchRequest env t.Url description with
  | .error err => .error err
  | .ok selections =>
    let txt := cleanText selections.Text
    .ok { Url := t.Url, Title := t.Title, Description := txt }

/-- The function `pushToResult` of `main.go` run by one worker on the Tasks
it receives, in order: the Results it sends, and the message of `log.Fatal`
when a fetch fails (the process ends there). -/
def pushToResult {Doc : Type} (env : Env Doc) (description : Str) :
    List Task → List Result × Option Str
  | [] => ([], none)
  | t :: ts =>
    match processTask env description t with
    | .error err => ([], some err)
    | .ok r =>
      let rest := pushToResult env description ts
      (r :: rest.1, rest.2)

/-! ## The spec's wording of two functions, for comparison with the code -/

/-- Text normalisation as the specification words it: leading and trailing
white space removed, every remaining newline replaced by one space. -/
def cleanTextSpec (s : Str) : Str :=
  ((s.dropWhile isSpace).rdropWhile isSpace).map (fun c => if c = '\n' then ' ' else c)

/-- Relative link resolution as the specification words it: the seed URL
without one trailing slash, a slash, the link without one leading slash. -/
def resolveRelative (seed link : Str) : Str :=
  TrimSuffix seed "/".toList ++ "/".toList ++ TrimPrefix link "/".toList

/-! ## The pipeline of `main`

The goroutines of `main.go` (main, the generator, the workers, `closeResults`)
as a transition system. A state holds where each goroutine stands; an `Action`
is one choice of the scheduler; `step` runs the chosen goroutine up to its
next channel or wait-group operation, and is `none` when that goroutine is
blocked. Both channels are unbuffered, so a send and its receive are one
action. A run is a list of actions, and every interleaving is such a list. -/

/-- The command-line flags of `main`; `concurrency` is the number of workers.
It is an `int` in Go; a negative value makes `wg.Add` fail at once, so only
the values from zero up are modelled. `main` reads the flags without calling
`flag.Parse`, so as shipped they hold their defaults; the model takes any
values. -/
structure Config where
  url : Str
  title : Str
  description : Str
  concurrency : Nat

/-- How the process stands: running, returned from `main`, ended by
`log.Fatal`, or ended by a run-time panic. -/
inductive Status where
  | running
  | exited
  | fatal (msg : Str)
  | panicked (msg : Str)
  deriving DecidableEq

/-- The position of `main`: before `results := make(...)` (the generator is
already started), in the loop that starts the workers with `k` of them
started, or in `for r := range results`. -/
inductive MainPc where
  | setup
  | spawning (k : Nat)
  | ranging
  deriving DecidableEq

/-- The position of `generateTasks`: before `fetchRequest` returns, sending
the Tasks still to send, or returned with the task channel closed. -/
inductive GenPc where
  | fetching
  | sending (rest : List Task)
  | closed
  deriving DecidableEq

/-- The position of one `pushToResult`: at `range tasks`, holding a Task it
is about to fetch, at `results <- r`, out of the loop with `wg.Done` still to
run, or returned. -/
inductive WorkerPc where
  | receiving
  | fetching (t : Task)
  | sending (r : Result)
  | leaving
  | done
  deriving DecidableEq

/-- The position of `closeResults`: not started, in `wg.Wait()`, before
`close(results)`, or returned. -/
inductive SentinelPc where
  | unstarted
  | waiting
  | closing
  | done
  deriving DecidableEq

/-- A state of the process. `wg` is the counter of the wait group, `closes`
the number of times `close(results)` has run, `received` what the loop of
`main` has logged so far. -/
structure State where
  status : Status
  main : MainPc
  gen : GenPc
  workers : List WorkerPc
  wg : Nat
  sentinel : SentinelPc
  closes : Nat
  received : List Result
  deriving DecidableEq

/-- One choice of the scheduler. -/
inductive Action where
  | mainStep
  | genStep
  | handTask (i : Nat)
  | workerStep (i : Nat)
  | handResult (i : Nat)
  | sentinelStep
  deriving DecidableEq

/-- The state after `go generateTasks(...)`: nothing else exists yet. -/
def State.init : State :=
  { status := .running, main := .setup, gen := .fetching, workers := [], wg := 0,
    sentinel := .unstarted, closes := 0, received := [] }

/-- The goroutine `main`: `wg.Add(concurrency)` and `go closeResults`; then
one `go pushToResult` per iteration; then the range loop, which ends (and
`main` returns) once the result channel is closed. -/
def stepMain (cfg : Config) (s : State) : Option State :=
  match s.main with
  | .setup => some { s with wg := s.wg + cfg.concurrency, sentinel := .waiting, main := .spawning 0 }
  | .spawning k =>
    if k < cfg.concurrency then
      some { s with workers := s.workers ++ [.receiving], main := .spawning (k + 1) }
    else some { s with main := .ranging }
  | .ranging => if 0 < s.closes then some { s with status := .exited } else none

/-- The goroutine `generateTasks` apart from its sends: the fetch of the seed
page (fatal when it fails), and the deferred `close(tasks)` once every Task is
sent. -/
def stepGen {Doc : Type} (env : Env Doc) (cfg : Config) (s : State) : Option State :=
  match s.gen with
  | .fetching =>
    match generateTasks env cfg.url cfg.title with
    | .error err => some { s with status := .fatal err }
    | .ok ts => some { s with gen := .sending ts }
  | .sending [] => some { s with gen := .closed }
  | .sending (_ :: _) => none
  | .closed => none

/-- The action `tasks <- Task` of the generator met by `range tasks` of worker `i`. -/
def stepHandTask (i : Nat) (s : State) : Option State :=
  match s.gen, s.workers[i]? with
  | .sending (t :: rest), some .receiving =>
    some { s with gen := .sending rest, workers := s.workers.set i (.fetching t) }
  | _, _ => none

/-- Worker `i` on its own: it sees the task channel closed and leaves the
loop; it fetches the page of the Task it holds (fatal when that fails); it
panics when it sends on a closed result channel; it runs the deferred
`wg.Done()`, which panics on a counter of zero. -/
def stepWorker {Doc : Type} (env : Env Doc) (cfg : Config) (i : Nat) (s : State) :
    Option State :=
  match s.workers[i]? with
  | none => none
  | some .receiving =>
    if s.gen = .closed then some { s with workers := s.workers.set i .leaving } else none
  | some (.fetching t) =>
    match processTask env cfg.description t with
    | .error err => some { s with status := .fatal err }
    | .ok r => some { s with workers := s.workers.set i (.sending r) }
  | some (.sending _) =>
    if 0 < s.closes then some { s with status := .panicked "send on closed channel".toList }
    else none
  | some .leaving =>
    if s.wg = 0 then some { s with status := .panicked "sync: negative WaitGroup counter".toList }
    else some { s with wg := s.wg - 1, workers := s.workers.set i .done }
  | some .done => none

/-- The action `results <- Result` of worker `i` met by the range loop of `main`,
which logs the Result. -/
def stepHandResult (i : Nat) (s : State) : Option State :=
  match s.workers[i]?, s.main with
  | some (.sending r), .ranging =>
    if s.closes = 0 then
      some { s with received := s.received ++ [r], workers := s.workers.set i .receiving }
    else none
  | _, _ => none

/-- The goroutine `closeResults`: `wg.Wait()` returns when the counter is zero;
then `close(results)`, which panics on a closed channel. -/
def stepSentinel (s : State) : Option State :=
  match s.sentinel with
  | .unstarted => none
  | .waiting => if s.wg = 0 then some { s with sentinel := .closing } else none
  | .closing =>
    if 0 < s.closes then some { s with status := .panicked "close of closed channel".toList }
    else some { s with closes := s.closes + 1, sentinel := .done }
  | .done => none

/-- One action of the scheduler; nothing runs once the process has ended. -/
def step {Doc : Type} (env : Env Doc) (cfg : Config) (a : Action) (s : State) : Option State :=
  if s.status ≠ .running then none
  else
    match a with
    | .mainStep => stepMain cfg s
    | .genStep => stepGen env cfg s
    | .handTask i => stepHandTask i s
    | .workerStep i => stepWorker env cfg i s
    | .handResult i => stepHandResult i s
    | .sentinelStep => stepSentinel s

/-- A run: the actions of a schedule one after the other, `none` when one of
them is not enabled. -/
def run {Doc : Type} (env : Env Doc) (cfg : Config) : List Action → State → Option State
  | [], s => some s
  | a :: rest, s =>
    match step env cfg a s with
    | none => none
    | some s1 => run env cfg rest s1

/-- The `(url, title)` pair of a Task. -/
def Task.key (t : Task) : Str × Str := (t.Url, t.Title)

/-- The `(url, title)` pair of a Result. -/
def Result.key (r : Result) : Str × Str := (r.Url, r.Title)

/-! ## Concrete collaborators, used to evaluate the definitions -/

/-- A site of three pages: the seed `https://x.test/` with the two anchors of
the scenario of the specification and one anchor without `href`, and the two
linked pages, each with the description `"  Summary text\n"`. Any other URL
answers `404 Not Found`, except `https://x.test/busy`, which answers 429. -/
def demoEnv : Env Str where
  Get := fun u =>
    if u = "https://x.test/".toList then
      .ok { StatusCode := 200, Status := "200 OK".toList, Body := "seed".toList }
    else if u = "https://x.test/p1".toList ∨ u = "https://x.test/p2".toList then
      .ok { StatusCode := 200, Status := "200 OK".toList, Body := "page".toList }
    else if u = "https://x.test/busy".toList then
      .ok { StatusCode := 429, Status := "429 Too Many Requests".toList, Body := [] }
    else
      .ok { StatusCode := 404, Status := "404 Not Found".toList, Body := [] }
  NewDocumentFromReader := fun body => .ok body
  Find := fun doc sel =>
    if doc = "seed".toList ∧ sel = "h2 a".toList then
      [ { href := some "/p1".toList, text := "Title One".toList },
        { href := none, text := "No link".toList },
        { href := some "/p2".toList, text := "Title Two".toList } ]
    else if doc = "page".toList ∧ sel = "div.tldr".toList then
      [ { href := none, text := "  Summary text\n".toList } ]
    else []

/-- The flags for `demoEnv`, with two workers. -/
def demoCfg : Config :=
  { url := "https://x.test/".toList, title := "h2 a".toList,
    description := "div.tldr".toList, concurrency := 2 }

/-- A complete schedule of `demoCfg` on `demoEnv`: both workers take one
Task; the second one delivers first. -/
def demoSchedule : List Action :=
  [ .genStep, .mainStep, .mainStep, .handTask 0, .mainStep, .handTask 1, .workerStep 1,
    .workerStep 0, .mainStep, .handResult 1, .genStep, .workerStep 1, .handResult 0,
    .workerStep 0, .workerStep 0, .workerStep 1, .sentinelStep, .sentinelStep, .mainStep ]

/-- A site where every URL answers `200 OK` and every selector matches the
given nodes. -/
def pageEnv (nodes : Selection) : Env Unit where
  Get := fun _ => .ok { StatusCode := 200, Status := "200 OK".toList, Body := [] }
  NewDocumentFromReader := fun _ => .ok ()
  Find := fun _ _ => nodes

/-- The nodes `demoEnv` matches on the seed page. -/
def demoSeedNodes : Selection :=
  [ { href := some "/p1".toList, text := "Title One".toList },
    { href := none, text := "No link".toList },
    { href := some "/p2".toList, text := "Title Two".toList } ]

/-- The Tasks of the scenario of the specification. -/
def demoTasks : List Task :=
  [ { Url := "https://x.test/p1".toList, Title := "Title One".toList },
    { Url := "https://x.test/p2".toList, Title := "Title Two".toList } ]

/-! ## Invariants and the measure of the pipeline -/

/-- One for a worker that has returned, zero for any other. -/
def WorkerPc.doneW : WorkerPc → Nat
  | .done => 1
  | _ => 0

/-- The number of workers that have run `wg.Done()` and returned. -/
def doneCount (ws : List WorkerPc) : Nat :=
  (ws.map WorkerPc.doneW).sum

/-- How often the pair `p` is in the hands of a worker: as the Task it is
fetching or as the Result it is sending. -/
def WorkerPc.held (p : Str × Str) : WorkerPc → Nat
  | .fetching t => if t.key = p then 1 else 0
  | .sending r => if r.key = p then 1 else 0
  | _ => 0

/-- How often the pair `p` occurs in a list of pairs. -/
def keyCount (p : Str × Str) (l : List (Str × Str)) : Nat :=
  l.countP (fun q => decide (q = p))

/-- The Tasks the generator has still to send, when `ts` is what it sends in all. -/
def GenPc.pending (ts : List Task) : GenPc → List Task
  | .fetching => ts
  | .sending rest => rest
  | .closed => []

/-- The control invariant of the pipeline for `n` workers: how the wait group
counter, the started workers, `closeResults` and the result channel relate in
every reachable state. -/
structure Ctl (n : Nat) (s : State) : Prop where
  setup : s.main = .setup → s.wg = 0 ∧ s.sentinel = .unstarted ∧ s.workers = [] ∧ s.closes = 0
  started : s.main ≠ .setup → s.sentinel ≠ .unstarted ∧ s.wg + doneCount s.workers = n
  spawned : ∀ k, s.main = .spawning k → s.workers.length = k
  bound : s.workers.length ≤ n
  ranging : s.main = .ranging → s.workers.length = n
  waiting : s.sentinel = .waiting → s.closes = 0
  closing : s.sentinel = .closing → s.closes = 0 ∧ s.wg = 0
  closed : s.sentinel = .done → s.closes = 1 ∧ s.wg = 0
  left : ∀ w ∈ s.workers, w = .leaving ∨ w = .done → s.gen = .closed
  noPanic : ∀ m, s.status ≠ .panicked m
  exited : s.status = .exited → 0 < s.closes

/-- The data invariant of the pipeline when the generator sends `ts` in all:
every Task is in exactly one place (still to send, held by a worker, or
received by `main`), and no worker holds anything else. -/
structure Data (ts : List Task) (s : State) : Prop where
  pending : ∀ t ∈ s.gen.pending ts, t ∈ ts
  held : ∀ w ∈ s.workers, ∀ t, w = .fetching t → t ∈ ts
  count : ∀ p, keyCount p ((s.gen.pending ts).map Task.key) +
      (s.workers.map (WorkerPc.held p)).sum + keyCount p (s.received.map Result.key) =
    keyCount p (ts.map Task.key)
  noFatal : ∀ m, s.status ≠ .fatal m

/-- The weight of the status in the measure. -/
def Status.weight : Status → Nat
  | .running => 1
  | _ => 0

/-- The weight of `main` in the measure, for `n` workers. -/
def MainPc.weight (n : Nat) : MainPc → Nat
  | .setup => 3 * n + 4
  | .spawning k => 3 * (n - k) + 1
  | .ranging => 0

/-- The weight of the generator in the measure, when a successful fetch of
the seed page yields `total` Tasks. -/
def GenPc.weight (total : Nat) : GenPc → Nat
  | .fetching => 4 * total + 2
  | .sending rest => 4 * rest.length + 1
  | .closed => 0

/-- The weight of a worker in the measure. -/
def WorkerPc.weight : WorkerPc → Nat
  | .receiving => 2
  | .fetching _ => 4
  | .sending _ => 3
  | .leaving => 1
  | .done => 0

/-- The weight of `closeResults` in the measure. -/
def SentinelPc.weight : SentinelPc → Nat
  | .unstarted => 2
  | .waiting => 2
  | .closing => 1
  | .done => 0

/-- The number of Tasks the generator sends: those of `generateTasks`, none
when the fetch of the seed page fails. -/
def taskTotal {Doc : Type} (env : Env Doc) (cfg : Config) : Nat :=
  match generateTasks env cfg.url cfg.title with
  | .ok ts => ts.length
  | .error _ => 0

/-- The measure of a state: every action makes it smaller. -/
def measure {Doc : Type} (env : Env Doc) (cfg : Config) (s : State) : Nat :=
  s.status.weight + s.main.weight cfg.concurrency + s.gen.weight (taskTotal env cfg) +
    (s.workers.map WorkerPc.weight).sum + s.sentinel.weight

/-- The state `demoSchedule` ends in. -/
def demoFinal : State :=
  { status := .exited, main := .ranging, gen := .closed, workers := [.done, .done], wg := 0,
    sentinel := .done, closes := 1,
    received :=
      [ ⟨"https://x.test/p2".toList, "Title Two".toList, "Summary text".toList⟩,
        ⟨"https://x.test/p1".toList, "Title One".toList, "Summary text".toList⟩ ] }

/-! ## Text normalisation -/

/-- The rune map of `ReplaceAll(_, "\n", " ")`. -/
theorem replaceFrom_newline (s : Str) :
    replaceFrom "\n".toList " ".toList s 0 = s.map (fun c => if c = '\n' then ' ' else c) := by
  induction s with
  | nil => rfl
  | cons c cs ih =>
    by_cases h : c = '\n'
    · subst h
      simpa [replaceFrom, HasPrefix] using ih
    · have h2 : ¬ '\n' = c := fun e => h e.symm
      have ih2 : replaceFrom ['\n'] [' '] cs 0 =
          cs.map (fun c => if c = '\n' then ' ' else c) := ih
      simp [replaceFrom, HasPrefix, h, h2, ih2]

theorem cleanText_eq_map (s : Str) :
    cleanText s = (TrimSpace s).map (fun c => if c = '\n' then ' ' else c) := by
  have h : ("\n".toList = []) = False := by simp
  simp only [cleanText, ReplaceAll, h, if_false]
  exact replaceFrom_newline _

theorem TrimSpace_eq (s : Str) : TrimSpace s = (s.dropWhile isSpace).rdropWhile isSpace := rfl

theorem TrimSpace_head (s : Str) (c : Char) (h : (TrimSpace s).head? = some c) :
    isSpace c = false := by
  rw [TrimSpace_eq] at h
  obtain ⟨t, ht⟩ := List.rdropWhile_prefix isSpace (l := s.dropWhile isSpace)
  have hd : (s.dropWhile isSpace).head? = some c := by
    rw [← ht]
    cases hr : List.rdropWhile isSpace (List.dropWhile isSpace s) with
    | nil => rw [hr] at h; simp at h
    | cons a r => rw [hr] at h; simpa using h
  have := List.head?_dropWhile_not isSpace s
  rw [hd] at this
  simpa using this

theorem TrimSpace_last (s : Str) (c : Char) (h : (TrimSpace s).getLast? = some c) :
    isSpace c = false := by
  rw [TrimSpace_eq] at h
  have hne : List.rdropWhile isSpace (s.dropWhile isSpace) ≠ [] := by
    intro h0; rw [h0] at h; simp at h
  have hl := List.rdropWhile_last_not isSpace (s.dropWhile isSpace) hne
  rw [List.getLast?_eq_getLast _ hne] at h
  simp only [Option.some.injEq] at h
  rw [h] at hl
  simpa using hl

theorem isSpace_newline : isSpace '\n' = true := by decide

theorem cleanText_head (s : Str) (c : Char) (h : (cleanText s).head? = some c) :
    isSpace c = false := by
  rw [cleanText_eq_map] at h
  cases ht : TrimSpace s with
  | nil => rw [ht] at h; simp at h
  | cons a r =>
    have ha : isSpace a = false := TrimSpace_head s a (by rw [ht]; rfl)
    have hne : a ≠ '\n' := by
      intro e; rw [e, isSpace_newline] at ha; cases ha
    rw [ht] at h
    simp [hne] at h
    rw [← h]; exact ha

theorem cleanText_last (s : Str) (c : Char) (h : (cleanText s).getLast? = some c) :
    isSpace c = false := by
  rw [cleanText_eq_map, List.getLast?_map] at h
  cases hl : (TrimSpace s).getLast? with
  | none => rw [hl] at h; simp at h
  | some a =>
    have ha : isSpace a = false := TrimSpace_last s a hl
    have hne : a ≠ '\n' := by
      intro e; rw [e, isSpace_newline] at ha; cases ha
    rw [hl] at h
    simp [hne] at h
    rw [← h]; exact ha

theorem cleanText_no_newline (s : Str) : '\n' ∉ cleanText s := by
  rw [cleanText_eq_map]
  intro h
  obtain ⟨a, _, ha⟩ := List.mem_map.1 h
  by_cases e : a = '\n'
  · simp [e] at ha
  · simp [e] at ha

theorem TrimSpace_fixed (t : Str) (hh : ∀ c, t.head? = some c → isSpace c = false)
    (hl : ∀ c, t.getLast? = some c → isSpace c = false) : TrimSpace t = t := by
  have h1 : t.dropWhile isSpace = t := by
    cases t with
    | nil => rfl
    | cons a r => simp [List.dropWhile, hh a rfl]
  rw [TrimSpace_eq, h1, List.rdropWhile_eq_self_iff]
  intro hne
  have := hl _ (List.getLast?_eq_getLast _ hne)
  simp [this]

theorem map_newline_fixed (t : Str) (h : '\n' ∉ t) :
    t.map (fun c => if c = '\n' then ' ' else c) = t := by
  induction t with
  | nil => rfl
  | cons a r ih =>
    have ha : a ≠ '\n' := fun e => h (by simp [e])
    have hr : '\n' ∉ r := fun e => h (by simp [e])
    simp [ha, ih hr]

/-- C4: `cleanText s` has no newline, neither begins nor ends with a white
space rune, and is `s` with leading and trailing white space removed and each
remaining newline replaced by one space (`cleanTextSpec`). -/
theorem cleanText_single_line_trimmed (s : Str) :
    '\n' ∉ cleanText s ∧
    (∀ c, (cleanText s).head? = some c → isSpace c = false) ∧
    (∀ c, (cleanText s).getLast? = some c → isSpace c = false) ∧
    cleanText s = cleanTextSpec s :=
  ⟨cleanText_no_newline s, cleanText_head s, cleanText_last s, cleanText_eq_map s⟩

theorem cleanText_single_line_trimmed_witness :
    (cleanText "  a\nb\n  ".toList).head? = some 'a' ∧ isSpace 'a' = false ∧
    (cleanText "  a\nb\n  ".toList).getLast? = some 'b' ∧ isSpace 'b' = false :=
  ⟨by decide, (cleanText_single_line_trimmed "  a\nb\n  ".toList).2.1 'a' (by decide),
    by decide, (cleanText_single_line_trimmed "  a\nb\n  ".toList).2.2.1 'b' (by decide)⟩

/-- C5: `cleanText` is idempotent, `cleanText "  a\nb\n  " = "a b"` and
`cleanText "a b" = "a b"`. -/
theorem cleanText_idempotent :
    (∀ s : Str, cleanText (cleanText s) = cleanText s) ∧
    cleanText "  a\nb\n  ".toList = "a b".toList ∧
    cleanText "a b".toList = "a b".toList := by
  refine ⟨fun s => ?_, by decide, by decide⟩
  rw [cleanText_eq_map (cleanText s),
    TrimSpace_fixed _ (cleanText_head s) (cleanText_last s),
    map_newline_fixed _ (cleanText_no_newline s)]

/-! ## The generator -/

theorem eachNode_cons_none (url : Str) (s : Node) (rest : Selection) (hs : s.href = none) :
    eachNode url (s :: rest) = eachNode url rest := by
  simp [eachNode, hs]

theorem eachNode_cons_absolute (url : Str) (s : Node) (rest : Selection) (link : Str)
    (hs : s.href = some link) (hc : Contains link "://".toList = true) :
    eachNode url (s :: rest) =
      { Url := link, Title := cleanText s.text } :: eachNode url rest := by
  have hc2 : Contains link [':', '/', '/'] = true := hc
  simp [eachNode, hs, hc2]

theorem eachNode_cons_relative (url : Str) (s : Node) (rest : Selection) (link : Str)
    (hs : s.href = some link) (hc : Contains link "://".toList = false) :
    eachNode url (s :: rest) =
      { Url := TrimSuffix url "/".toList ++ "/".toList ++ TrimPrefix link "/".toList,
        Title := cleanText s.text } :: eachNode (TrimSuffix url "/".toList) rest := by
  have hc2 : Contains link [':', '/', '/'] = false := hc
  simp [eachNode, hs, hc2]

theorem filter_href_cons_none (s : Node) (rest : Selection) (hs : s.href = none) :
    (s :: rest).filter (fun s => s.href.isSome) = rest.filter (fun s => s.href.isSome) := by
  simp [List.filter, hs]

theorem filter_href_cons_some (s : Node) (rest : Selection) (link : Str)
    (hs : s.href = some link) :
    (s :: rest).filter (fun s => s.href.isSome) = s :: rest.filter (fun s => s.href.isSome) := by
  simp [List.filter, hs]

theorem eachNode_filter (url : Str) (sel : Selection) :
    eachNode url sel = eachNode url (sel.filter (fun s => s.href.isSome)) := by
  induction sel generalizing url with
  | nil => rfl
  | cons s rest ih =>
    cases hs : s.href with
    | none => rw [eachNode_cons_none _ _ _ hs, filter_href_cons_none _ _ hs, ih]
    | some link =>
      rw [filter_href_cons_some _ _ _ hs]
      cases hc : Contains link "://".toList with
      | true =>
        rw [eachNode_cons_absolute _ _ _ _ hs hc, eachNode_cons_absolute _ _ _ _ hs hc, ← ih]
      | false =>
        rw [eachNode_cons_relative _ _ _ _ hs hc, eachNode_cons_relative _ _ _ _ hs hc, ← ih]

theorem eachNode_titles (url : Str) (sel : Selection) :
    (eachNode url sel).map Task.Title =
      (sel.filter (fun s => s.href.isSome)).map (fun s => cleanText s.text) := by
  induction sel generalizing url with
  | nil => rfl
  | cons s rest ih =>
    cases hs : s.href with
    | none => rw [eachNode_cons_none _ _ _ hs, filter_href_cons_none _ _ hs, ih]
    | some link =>
      rw [filter_href_cons_some _ _ _ hs]
      cases hc : Contains link "://".toList with
      | true => rw [eachNode_cons_absolute _ _ _ _ hs hc, List.map_cons, List.map_cons, ih]
      | false => rw [eachNode_cons_relative _ _ _ _ hs hc, List.map_cons, List.map_cons, ih]

theorem eachNode_length (url : Str) (sel : Selection) :
    (eachNode url sel).length = (sel.filter (fun s => s.href.isSome)).length := by
  have h := congrArg List.length (eachNode_titles url sel)
  simpa using h

theorem eachNode_absolute (url : Str) (sel : Selection) (i : Nat) (node : Node) (link : Str)
    (hn : (sel.filter (fun s => s.href.isSome))[i]? = some node) (hl : node.href = some link)
    (ha : Contains link "://".toList = true) :
    (eachNode url sel)[i]? = some { Url := link, Title := cleanText node.text } := by
  induction sel generalizing url i with
  | nil => simp at hn
  | cons s rest ih =>
    cases hs : s.href with
    | none =>
      rw [filter_href_cons_none _ _ hs] at hn
      rw [eachNode_cons_none _ _ _ hs]
      exact ih url i hn
    | some l =>
      rw [filter_href_cons_some _ _ _ hs] at hn
      cases i with
      | zero =>
        have e : s = node := by simpa using hn
        subst e
        have e2 : l = link := by rw [hs] at hl; exact Option.some.inj hl
        subst e2
        rw [eachNode_cons_absolute _ _ _ _ hs ha]
        simp
      | succ j =>
        have hn2 : (rest.filter (fun s => s.href.isSome))[j]? = some node := by simpa using hn
        cases hc : Contains l "://".toList with
        | true =>
          rw [eachNode_cons_absolute _ _ _ _ hs hc]
          simpa using ih url j hn2
        | false =>
          rw [eachNode_cons_relative _ _ _ _ hs hc]
          simpa using ih _ j hn2

theorem eachNode_relative_from (b url : Str) (sel : Selection) (i : Nat) (node : Node)
    (link : Str) (hu : TrimSuffix url "/".toList = b) (hb : TrimSuffix b "/".toList = b)
    (hn : (sel.filter (fun s => s.href.isSome))[i]? = some node) (hl : node.href = some link)
    (hr : Contains link "://".toList = false) :
    (eachNode url sel)[i]? =
      some { Url := b ++ "/".toList ++ TrimPrefix link "/".toList,
             Title := cleanText node.text } := by
  induction sel generalizing url i with
  | nil => simp at hn
  | cons s rest ih =>
    cases hs : s.href with
    | none =>
      rw [filter_href_cons_none _ _ hs] at hn
      rw [eachNode_cons_none _ _ _ hs]
      exact ih url i hu hn
    | some l =>
      rw [filter_href_cons_some _ _ _ hs] at hn
      cases i with
      | zero =>
        have e : s = node := by simpa using hn
        subst e
        have e2 : l = link := by rw [hs] at hl; exact Option.some.inj hl
        subst e2
        rw [eachNode_cons_relative _ _ _ _ hs hr, hu]
        simp
      | succ j =>
        have hn2 : (rest.filter (fun s => s.href.isSome))[j]? = some node := by simpa using hn
        cases hc : Contains l "://".toList with
        | true =>
          rw [eachNode_cons_absolute _ _ _ _ hs hc]
          simpa using ih url j hu hn2
        | false =>
          rw [eachNode_cons_relative _ _ _ _ hs hc, hu]
          simpa using ih b j hb hn2

/-- For a seed that does not end in two slashes, the Task of every relative
link, at any position, has the url `resolveRelative seed link`. -/
theorem eachNode_relative_single_slash (seed : Str) (sel : Selection) (i : Nat) (node : Node)
    (link : Str)
    (hseed : TrimSuffix (TrimSuffix seed "/".toList) "/".toList = TrimSuffix seed "/".toList)
    (hn : (sel.filter (fun s => s.href.isSome))[i]? = some node) (hl : node.href = some link)
    (hr : Contains link "://".toList = false) :
    (eachNode seed sel)[i]? =
      some { Url := resolveRelative seed link, Title := cleanText node.text } :=
  eachNode_relative_from _ seed sel i node link rfl hseed hn hl hr

/-- C1: on the seed `https://example.com/blog//` two relative links in a row
are resolved against different bases, because the closure of `generateTasks`
overwrites `url`: the second Task is not the seed without one trailing slash
joined to the link (`resolveRelative`). The example of the specification,
seed `https://example.com/blog/` and link `post-1`, does resolve as stated. -/
theorem generateTasks_relative_link_drift :
    generateTasks (pageEnv [⟨some "post-1".toList, "A".toList⟩, ⟨some "post-2".toList, "B".toList⟩])
        "https://example.com/blog//".toList "a".toList =
      .ok [⟨"https://example.com/blog//post-1".toList, "A".toList⟩,
           ⟨"https://example.com/blog/post-2".toList, "B".toList⟩] ∧
    resolveRelative "https://example.com/blog//".toList "post-2".toList =
      "https://example.com/blog//post-2".toList ∧
    "https://example.com/blog/post-2".toList ≠
      resolveRelative "https://example.com/blog//".toList "post-2".toList ∧
    generateTasks (pageEnv [⟨some "post-1".toList, "A".toList⟩])
        "https://example.com/blog/".toList "a".toList =
      .ok [⟨"https://example.com/blog/post-1".toList, "A".toList⟩] := by
  refine ⟨by rfl, by decide, by decide, by rfl⟩

/-- C2: when the seed page is fetched, the Task of the `i`-th node with an
`href`, if that link contains `://`, is the `i`-th Task sent and its url is
the link unchanged, whatever the seed URL and the position. -/
theorem generateTasks_absolute_link {Doc : Type} (env : Env Doc) (url title : Str)
    (sel : Selection) (i : Nat) (node : Node) (link : Str)
    (hf : fetchRequest env url title = .ok sel)
    (hn : (sel.filter (fun s => s.href.isSome))[i]? = some node)
    (hl : node.href = some link) (ha : Contains link "://".toList = true) :
    ∃ ts t, generateTasks env url title = .ok ts ∧ ts[i]? = some t ∧
      t.Url = link ∧ t.Title = cleanText node.text := by
  refine ⟨eachNode url sel, ⟨link, cleanText node.text⟩, ?_, ?_, rfl, rfl⟩
  · simp [generateTasks, hf]
  · exact eachNode_absolute url sel i node link hn hl ha

theorem generateTasks_absolute_link_witness :
    ∃ ts t, generateTasks
        (pageEnv [⟨some "post-1".toList, "A".toList⟩, ⟨none, "B".toList⟩,
          ⟨some "https://other.com/x".toList, "C".toList⟩])
        "https://example.com/blog/".toList "a".toList = .ok ts ∧
      ts[1]? = some t ∧ t.Url = "https://other.com/x".toList ∧
      t.Title = cleanText "C".toList :=
  generateTasks_absolute_link _ _ _ _ 1 ⟨some "https://other.com/x".toList, "C".toList⟩ _
    (by rfl) (by decide) rfl (by decide)

/-- C3: when the seed page is fetched with matched nodes `sel`,
`generateTasks` sends one Task per node that has an `href`, in order: as many
Tasks as such nodes, the titles are `cleanText` of their texts, and the Tasks
are those of `sel` with the nodes without `href` removed. -/
theorem generateTasks_one_per_href {Doc : Type} (env : Env Doc) (url title : Str)
    (sel : Selection) (hf : fetchRequest env url title = .ok sel) :
    ∃ ts, generateTasks env url title = .ok ts ∧
      ts.length = (sel.filter (fun s => s.href.isSome)).length ∧
      ts.map Task.Title = (sel.filter (fun s => s.href.isSome)).map (fun s => cleanText s.text) ∧
      ts = eachNode url (sel.filter (fun s => s.href.isSome)) := by
  refine ⟨eachNode url sel, ?_, eachNode_length url sel, eachNode_titles url sel,
    eachNode_filter url sel⟩
  simp [generateTasks, hf]

theorem generateTasks_one_per_href_witness :
    ∃ ts, generateTasks demoEnv demoCfg.url demoCfg.title = .ok ts ∧
      ts.length = (demoSeedNodes.filter (fun s => s.href.isSome)).length ∧
      ts.map Task.Title =
        (demoSeedNodes.filter (fun s => s.href.isSome)).map (fun s => cleanText s.text) ∧
      ts = eachNode demoCfg.url (demoSeedNodes.filter (fun s => s.href.isSome)) :=
  generateTasks_one_per_href demoEnv demoCfg.url demoCfg.title demoSeedNodes (by rfl)

/-! ## Fetching -/

theorem fetchRequest_get_error {Doc : Type} (env : Env Doc) (url title err : Str)
    (h : env.Get url = .error err) :
    fetchRequest env url title =
      .error ("could not get request ".toList ++ url ++ ": ".toList ++ err) := by
  simp [fetchRequest, h]

theorem fetchRequest_too_many {Doc : Type} (env : Env Doc) (url title : Str) (resp : Response)
    (h : env.Get url = .ok resp) (hs : resp.StatusCode = 429) :
    fetchRequest env url title = .error "too many requests".toList := by
  simp [fetchRequest, h, hs, StatusOK, StatusTooManyRequests]

theorem fetchRequest_bad_status {Doc : Type} (env : Env Doc) (url title : Str) (resp : Response)
    (h : env.Get url = .ok resp) (hs : resp.StatusCode ≠ 200) (ht : resp.StatusCode ≠ 429) :
    fetchRequest env url title = .error ("bad response from server: ".toList ++ resp.Status) := by
  simp [fetchRequest, h, hs, ht, StatusOK, StatusTooManyRequests]

theorem fetchRequest_parse_error {Doc : Type} (env : Env Doc) (url title err : Str)
    (resp : Response) (h : env.Get url = .ok resp) (hs : resp.StatusCode = 200)
    (hp : env.NewDocumentFromReader resp.Body = .error err) :
    fetchRequest env url title = .error ("could not parse response body: ".toList ++ err) := by
  simp [fetchRequest, h, hs, hp, StatusOK]

theorem fetchRequest_ok {Doc : Type} (env : Env Doc) (url title : Str) (resp : Response)
    (doc : Doc) (h : env.Get url = .ok resp) (hs : resp.StatusCode = 200)
    (hp : env.NewDocumentFromReader resp.Body = .ok doc) :
    fetchRequest env url title = .ok (env.Find doc title) := by
  simp [fetchRequest, h, hs, hp, StatusOK]

/-- C7: `fetchRequest` returns an error exactly when `http.Get` fails, or the
status code is not 200, or the body does not parse; with a response of status
200 whose body parses it returns the selection of the document. The message
for status 429 differs from the message for any other status that is not 200. -/
theorem fetchRequest_error_iff :
    (∀ (Doc : Type) (env : Env Doc) (url title : Str),
      (∃ e, fetchRequest env url title = .error e) ↔
        ((∃ e, env.Get url = .error e) ∨
          ∃ resp, env.Get url = .ok resp ∧
            (resp.StatusCode ≠ 200 ∨ ∃ e, env.NewDocumentFromReader resp.Body = .error e))) ∧
    (∀ (Doc : Type) (env : Env Doc) (url title : Str) (resp : Response) (doc : Doc),
      env.Get url = .ok resp → resp.StatusCode = 200 →
      env.NewDocumentFromReader resp.Body = .ok doc →
      fetchRequest env url title = .ok (env.Find doc title)) ∧
    (∀ (Doc : Type) (env : Env Doc) (url1 title1 url2 title2 : Str) (r1 r2 : Response),
      env.Get url1 = .ok r1 → r1.StatusCode = 429 →
      env.Get url2 = .ok r2 → r2.StatusCode ≠ 200 → r2.StatusCode ≠ 429 →
      ∃ e1 e2, fetchRequest env url1 title1 = .error e1 ∧
        fetchRequest env url2 title2 = .error e2 ∧ e1 ≠ e2) := by
  refine ⟨?_, ?_, ?_⟩
  · intro Doc env url title
    cases hg : env.Get url with
    | error err =>
      rw [fetchRequest_get_error env url title err hg]
      exact ⟨fun _ => Or.inl ⟨err, rfl⟩, fun _ => ⟨_, rfl⟩⟩
    | ok resp =>
      by_cases h2 : resp.StatusCode = 200
      · cases hp : env.NewDocumentFromReader resp.Body with
        | error err =>
          rw [fetchRequest_parse_error env url title err resp hg h2 hp]
          exact ⟨fun _ => Or.inr ⟨resp, rfl, Or.inr ⟨err, hp⟩⟩, fun _ => ⟨_, rfl⟩⟩
        | ok doc =>
          rw [fetchRequest_ok env url title resp doc hg h2 hp]
          constructor
          · rintro ⟨e, he⟩
            cases he
          · rintro (⟨e, he⟩ | ⟨r, hr, hc⟩)
            · cases he
            · have e : r = resp := by
                have := hr.symm
                injection this
              subst e
              rcases hc with hc | ⟨e, he⟩
              · exact absurd h2 hc
              · rw [hp] at he
                cases he
      · have herr : ∃ e, fetchRequest env url title = .error e := by
          by_cases h4 : resp.StatusCode = 429
          · exact ⟨_, fetchRequest_too_many env url title resp hg h4⟩
          · exact ⟨_, fetchRequest_bad_status env url title resp hg h2 h4⟩
        exact ⟨fun _ => Or.inr ⟨resp, rfl, Or.inl h2⟩, fun _ => herr⟩
  · intro Doc env url title resp doc hg h2 hp
    exact fetchRequest_ok env url title resp doc hg h2 hp
  · intro Doc env url1 title1 url2 title2 r1 r2 h1 hs1 h2 hs2 ht2
    refine ⟨_, _, fetchRequest_too_many env url1 title1 r1 h1 hs1,
      fetchRequest_bad_status env url2 title2 r2 h2 hs2 ht2, ?_⟩
    intro e
    have hh := congrArg List.head? e
    simp at hh

theorem fetchRequest_error_iff_witness :
    ∃ e1 e2, fetchRequest demoEnv "https://x.test/busy".toList "div.tldr".toList = .error e1 ∧
      fetchRequest demoEnv "https://x.test/gone".toList "div.tldr".toList = .error e2 ∧
      e1 ≠ e2 :=
  fetchRequest_error_iff.2.2 Str demoEnv "https://x.test/busy".toList "div.tldr".toList
    "https://x.test/gone".toList "div.tldr".toList
    { StatusCode := 429, Status := "429 Too Many Requests".toList, Body := [] }
    { StatusCode := 404, Status := "404 Not Found".toList, Body := [] }
    (by rfl) rfl (by rfl) (by decide) (by decide)

theorem Contains_of_HasPrefix (s sub : Str) (h : HasPrefix s sub = true) :
    Contains s sub = true := by
  cases s with
  | nil => simpa [Contains] using h
  | cons c cs => simp [Contains, h]

theorem Contains_append_left (p s sub : Str) (h : Contains s sub = true) :
    Contains (p ++ s) sub = true := by
  induction p with
  | nil => simpa using h
  | cons c cs ih => simp [Contains, ih]

theorem Contains_infix (p u q : Str) : Contains (p ++ u ++ q) u = true := by
  rw [List.append_assoc]
  apply Contains_append_left
  apply Contains_of_HasPrefix
  simp [HasPrefix]

/-- C8: the message `fetchRequest` returns for a status 429 or 404 is the
bare cause and does not contain the URL that failed, while the message for a
failed `http.Get` always contains the URL. -/
theorem fetchRequest_status_error_omits_url :
    (∀ (Doc : Type) (env : Env Doc) (url title err : Str), env.Get url = .error err →
      ∃ m, fetchRequest env url title = .error m ∧ Contains m url = true) ∧
    fetchRequest demoEnv "https://x.test/busy".toList "div.tldr".toList =
      .error "too many requests".toList ∧
    Contains "too many requests".toList "https://x.test/busy".toList = false ∧
    fetchRequest demoEnv "https://x.test/gone".toList "div.tldr".toList =
      .error "bad response from server: 404 Not Found".toList ∧
    Contains "bad response from server: 404 Not Found".toList "https://x.test/gone".toList
      = false := by
  refine ⟨?_, by rfl, by decide, by rfl, by decide⟩
  intro Doc env url title err h
  refine ⟨_, fetchRequest_get_error env url title err h, ?_⟩
  rw [List.append_assoc _ ": ".toList err]
  exact Contains_infix _ url _

/-! ## One worker -/

theorem processTask_ok {Doc : Type} (env : Env Doc) (description : Str) (t : Task)
    (sel : Selection) (h : fetchRequest env t.Url description = .ok sel) :
    processTask env description t =
      .ok { Url := t.Url, Title := t.Title, Description := cleanText sel.Text } := by
  simp [processTask, h]

theorem processTask_key {Doc : Type} (env : Env Doc) (description : Str) (t : Task)
    (r : Result) (h : processTask env description t = .ok r) : r.key = t.key := by
  unfold processTask at h
  cases hf : fetchRequest env t.Url description with
  | error e => rw [hf] at h; cases h
  | ok sel =>
    rw [hf] at h
    injection h with h
    rw [← h]
    rfl

theorem processTask_error {Doc : Type} (env : Env Doc) (description : Str) (t : Task)
    (err : Str) (h : fetchRequest env t.Url description = .error err) :
    processTask env description t = .error err := by
  simp [processTask, h]

theorem pushToResult_append {Doc : Type} (env : Env Doc) (description : Str)
    (ts1 ts2 : List Task) (sel : Task → Selection)
    (h : ∀ t ∈ ts1, fetchRequest env t.Url description = .ok (sel t)) :
    pushToResult env description (ts1 ++ ts2) =
      (ts1.map (fun t =>
          { Url := t.Url, Title := t.Title, Description := cleanText (sel t).Text }) ++
        (pushToResult env description ts2).1, (pushToResult env description ts2).2) := by
  induction ts1 with
  | nil => rfl
  | cons t rest ih =>
    have ht := processTask_ok env description t (sel t) (h t (List.mem_cons_self _ _))
    have hr := ih (fun x hx => h x (List.mem_cons_of_mem _ hx))
    simp [pushToResult, ht, hr]

/-- C6: for the Tasks `ts1` a worker consumes whose fetches succeed, whatever
it consumes after them (`ts2`, which may hold a Task whose fetch fails), the
worker sends first one Result per Task of `ts1`, in the order consumed, with
`Url` and `Title` copied from the Task and `Description` the `cleanText` of
the text extracted from the fetched page, and then what it sends for `ts2`;
with nothing after them these are all its Results and it ends without
`log.Fatal`; a Task whose fetch fails yields no Result and ends the process
with the error of the fetch; and
`cleanText "  Summary text\n" = "Summary text"`. -/
theorem pushToResult_copies_task {Doc : Type} (env : Env Doc) (description : Str)
    (ts1 : List Task) (sel : Task → Selection)
    (h : ∀ t ∈ ts1, fetchRequest env t.Url description = .ok (sel t)) :
    (∀ ts2, pushToResult env description (ts1 ++ ts2) =
      (ts1.map (fun t =>
          { Url := t.Url, Title := t.Title, Description := cleanText (sel t).Text }) ++
        (pushToResult env description ts2).1, (pushToResult env description ts2).2)) ∧
    pushToResult env description ts1 =
      (ts1.map (fun t =>
        { Url := t.Url, Title := t.Title, Description := cleanText (sel t).Text }), none) ∧
    (∀ (t : Task) (err : Str) (rest : List Task),
      fetchRequest env t.Url description = .error err →
      pushToResult env description (t :: rest) = ([], some err)) ∧
    cleanText "  Summary text\n".toList = "Summary text".toList := by
  refine ⟨fun ts2 => pushToResult_append env description ts1 ts2 sel h, ?_, ?_, by decide⟩
  · have := pushToResult_append env description ts1 [] sel h
    simpa [pushToResult] using this
  · intro t err rest he
    simp [pushToResult, processTask_error env description t err he]

theorem pushToResult_copies_task_witness :
    pushToResult demoEnv demoCfg.description
        ([⟨"https://x.test/p1".toList, "Title One".toList⟩] ++
          [⟨"https://x.test/gone".toList, "Gone".toList⟩,
           ⟨"https://x.test/p2".toList, "Title Two".toList⟩]) =
      ([⟨"https://x.test/p1".toList, "Title One".toList, "Summary text".toList⟩],
        some "bad response from server: 404 Not Found".toList) ∧
    pushToResult demoEnv demoCfg.description demoTasks =
      ([⟨"https://x.test/p1".toList, "Title One".toList, "Summary text".toList⟩,
        ⟨"https://x.test/p2".toList, "Title Two".toList, "Summary text".toList⟩], none) := by
  have hsel : ∀ ts : List Task, (∀ t ∈ ts, t ∈ demoTasks) → ∀ t ∈ ts,
      fetchRequest demoEnv t.Url demoCfg.description =
        .ok [{ href := none, text := "  Summary text\n".toList }] := by
    intro ts hts t ht
    have hm := hts t ht
    simp only [demoTasks, List.mem_cons, List.mem_singleton, List.not_mem_nil, or_false] at hm
    rcases hm with e | e <;> subst e <;> rfl
  have h1 := (pushToResult_copies_task demoEnv demoCfg.description
    [⟨"https://x.test/p1".toList, "Title One".toList⟩]
    (fun _ => [{ href := none, text := "  Summary text\n".toList }])
    (hsel _ (by intro t ht; simp only [List.mem_singleton] at ht; subst ht; decide))).1
      [⟨"https://x.test/gone".toList, "Gone".toList⟩,
       ⟨"https://x.test/p2".toList, "Title Two".toList⟩]
  have h2 := (pushToResult_copies_task demoEnv demoCfg.description demoTasks
    (fun _ => [{ href := none, text := "  Summary text\n".toList }])
    (hsel _ (fun _ ht => ht))).2.1
  refine ⟨h1.trans (by rfl), h2.trans (by rfl)⟩

/-! ## The pipeline: control -/

theorem sum_map_set {α : Type} (f : α → Nat) (l : List α) (i : Nat) (a b : α)
    (h : l[i]? = some a) : ((l.set i b).map f).sum + f a = (l.map f).sum + f b := by
  induction l generalizing i with
  | nil => simp at h
  | cons x xs ih =>
    cases i with
    | zero =>
      have e : x = a := by simpa using h
      subst e
      simp only [List.set_cons_zero, List.map_cons, List.sum_cons]
      omega
    | succ j =>
      have h2 : xs[j]? = some a := by simpa using h
      have := ih j h2
      simp only [List.set_cons_succ, List.map_cons, List.sum_cons]
      omega

theorem doneCount_le (ws : List WorkerPc) : doneCount ws ≤ ws.length := by
  induction ws with
  | nil => simp [doneCount]
  | cons w rest ih =>
    have : doneCount (w :: rest) = w.doneW + doneCount rest := by simp [doneCount]
    cases w <;> simp [WorkerPc.doneW] at this <;> simp <;> omega

theorem all_done_of_doneCount (ws : List WorkerPc) (h : doneCount ws = ws.length) :
    ∀ w ∈ ws, w = .done := by
  induction ws with
  | nil => simp
  | cons w rest ih =>
    have e : doneCount (w :: rest) = w.doneW + doneCount rest := by simp [doneCount]
    have hle := doneCount_le rest
    rw [e] at h
    simp only [List.length_cons] at h
    cases w <;> simp [WorkerPc.doneW] at h <;> first | omega | skip
    intro x hx
    rcases List.mem_cons.1 hx with hx | hx
    · exact hx
    · exact ih (by omega) x hx

theorem exists_not_done (ws : List WorkerPc) (h : doneCount ws < ws.length) :
    ∃ (i : Nat) (w : WorkerPc), ws[i]? = some w ∧ w ≠ .done := by
  induction ws with
  | nil => simp at h
  | cons w rest ih =>
    by_cases hw : w = .done
    · subst hw
      have e : doneCount (WorkerPc.done :: rest) = 1 + doneCount rest := by
        simp [doneCount, WorkerPc.doneW]
      rw [e] at h
      simp only [List.length_cons] at h
      obtain ⟨i, x, hi, hx⟩ := ih (by omega)
      exact ⟨i + 1, x, by simpa using hi, hx⟩
    · exact ⟨0, w, by simp, hw⟩

theorem doneCount_set (ws : List WorkerPc) (i : Nat) (a b : WorkerPc) (h : ws[i]? = some a) :
    doneCount (ws.set i b) + a.doneW = doneCount ws + b.doneW :=
  sum_map_set WorkerPc.doneW ws i a b h

theorem doneCount_lt (ws : List WorkerPc) (i : Nat) (a : WorkerPc) (h : ws[i]? = some a)
    (ha : a ≠ .done) : doneCount ws < ws.length := by
  have h1 := doneCount_set ws i a .done h
  have h2 := doneCount_le (ws.set i .done)
  have h3 : a.doneW = 0 := by cases a <;> simp_all [WorkerPc.doneW]
  simp [WorkerPc.doneW] at h1 h2
  omega

theorem Ctl.holds_init (n : Nat) : Ctl n State.init := by
  constructor <;> simp [State.init]

theorem stepMain_ctl (cfg : Config) (s s1 : State) (h : Ctl cfg.concurrency s)
    (hs : stepMain cfg s = some s1) : Ctl cfg.concurrency s1 := by
  obtain ⟨status, main, gen, workers, wg, sentinel, closes, received⟩ := s
  obtain ⟨h1, h2, h3, h4, h5, h6, h7, h8, h9, h10, h11⟩ := h
  unfold stepMain at hs
  cases main with
  | setup =>
    simp only [Option.some.injEq] at hs
    subst hs
    simp at h1
    obtain ⟨e1, e2, e3, e4⟩ := h1
    subst e1 e2 e3 e4
    constructor <;> first | assumption | simp_all [doneCount]
  | spawning k =>
    simp only at hs
    have hk := h3 k rfl
    simp only at hk h4
    have hst := h2 (by simp)
    simp only at hst
    have hd : doneCount (workers ++ [WorkerPc.receiving]) = doneCount workers := by
      simp [doneCount, WorkerPc.doneW]
    split at hs
    · rename_i hlt
      simp only [Option.some.injEq] at hs
      subst hs
      refine ⟨by simp, fun _ => ⟨hst.1, ?_⟩, ?_, ?_, by simp, h6, h7, h8, ?_, h10, h11⟩
      · simp only [hd]; exact hst.2
      · intro j hj
        simp only [MainPc.spawning.injEq] at hj
        simp only [List.length_append, List.length_singleton]
        omega
      · simp only [List.length_append, List.length_singleton]
        omega
      · intro w hw hc
        simp only [List.mem_append, List.mem_singleton] at hw
        rcases hw with hw | hw
        · exact h9 w hw hc
        · subst hw
          rcases hc with hc | hc <;> cases hc
    · rename_i hge
      simp only [Option.some.injEq] at hs
      subst hs
      refine ⟨by simp, fun _ => hst, by simp, h4, fun _ => ?_, h6, h7, h8, h9, h10, h11⟩
      simp only at hk ⊢
      omega
  | ranging =>
    simp only at hs
    split at hs
    · simp only [Option.some.injEq] at hs
      subst hs
      constructor <;> first | assumption | simp_all [doneCount]
    · cases hs

theorem stepSentinel_ctl (n : Nat) (s s1 : State) (h : Ctl n s)
    (hs : stepSentinel s = some s1) : Ctl n s1 := by
  obtain ⟨status, main, gen, workers, wg, sentinel, closes, received⟩ := s
  obtain ⟨h1, h2, h3, h4, h5, h6, h7, h8, h9, h10, h11⟩ := h
  unfold stepSentinel at hs
  cases sentinel with
  | unstarted => cases hs
  | waiting =>
    simp only at hs
    split at hs
    · simp only [Option.some.injEq] at hs
      subst hs
      constructor <;> first | assumption | simp_all [doneCount]
    · cases hs
  | closing =>
    simp only at hs
    have hc := h7 rfl
    simp only at hc
    split at hs
    · omega
    · simp only [Option.some.injEq] at hs
      subst hs
      constructor <;> first | assumption | simp_all [doneCount]
  | done => cases hs

theorem stepGen_ctl {Doc : Type} (env : Env Doc) (cfg : Config) (n : Nat) (s s1 : State)
    (h : Ctl n s) (hs : stepGen env cfg s = some s1) : Ctl n s1 := by
  obtain ⟨status, main, gen, workers, wg, sentinel, closes, received⟩ := s
  obtain ⟨h1, h2, h3, h4, h5, h6, h7, h8, h9, h10, h11⟩ := h
  unfold stepGen at hs
  cases gen with
  | fetching =>
    simp only at hs
    split at hs
    · simp only [Option.some.injEq] at hs
      subst hs
      constructor <;> first | assumption | simp_all [doneCount]
    · simp only [Option.some.injEq] at hs
      subst hs
      constructor <;> first | assumption | simp_all [doneCount]
  | sending rest =>
    cases rest with
    | nil =>
      simp only [Option.some.injEq] at hs
      subst hs
      constructor <;> first | assumption | simp_all [doneCount]
    | cons t r => cases hs
  | closed => cases hs

theorem Ctl.set_gen (n : Nat) (s : State) (g : GenPc) (h : Ctl n s)
    (hg : s.gen = .closed → g = .closed) : Ctl n { s with gen := g } := by
  obtain ⟨h1, h2, h3, h4, h5, h6, h7, h8, h9, h10, h11⟩ := h
  exact ⟨h1, h2, h3, h4, h5, h6, h7, h8, fun w hw hc => hg (h9 w hw hc), h10, h11⟩

theorem Ctl.set_received (n : Nat) (s : State) (r : List Result) (h : Ctl n s) :
    Ctl n { s with received := r } := by
  obtain ⟨h1, h2, h3, h4, h5, h6, h7, h8, h9, h10, h11⟩ := h
  exact ⟨h1, h2, h3, h4, h5, h6, h7, h8, h9, h10, h11⟩

theorem Ctl.set_fatal (n : Nat) (s : State) (m : Str) (h : Ctl n s) :
    Ctl n { s with status := .fatal m } := by
  obtain ⟨h1, h2, h3, h4, h5, h6, h7, h8, h9, h10, h11⟩ := h
  exact ⟨h1, h2, h3, h4, h5, h6, h7, h8, h9, fun _ e => (by cases e), fun e => (by cases e)⟩

theorem Ctl.set_worker (n : Nat) (s : State) (i : Nat) (a b : WorkerPc) (h : Ctl n s)
    (hi : s.workers[i]? = some a) (hd : b.doneW = a.doneW)
    (hl : b = .leaving ∨ b = .done → s.gen = .closed) :
    Ctl n { s with workers := s.workers.set i b } := by
  obtain ⟨h1, h2, h3, h4, h5, h6, h7, h8, h9, h10, h11⟩ := h
  have hc : doneCount (s.workers.set i b) = doneCount s.workers := by
    have := doneCount_set s.workers i a b hi
    omega
  refine ⟨fun e => ?_, fun e => ?_, fun k e => ?_, ?_, fun e => ?_, h6, h7, h8, ?_, h10, h11⟩
  · have hw := (h1 e).2.2.1
    rw [hw] at hi
    simp at hi
  · exact ⟨(h2 e).1, by simp only [hc]; exact (h2 e).2⟩
  · simp only [List.length_set]; exact h3 k e
  · simp only [List.length_set]; exact h4
  · simp only [List.length_set]; exact h5 e
  · intro w hw hc2
    rcases List.mem_or_eq_of_mem_set hw with hw | hw
    · exact h9 w hw hc2
    · subst hw
      exact hl hc2

theorem Ctl.all_done (n : Nat) (s : State) (h : Ctl n s) (hm : s.main ≠ .setup)
    (hw : s.wg = 0) : s.workers.length = n ∧ ∀ w ∈ s.workers, w = .done := by
  have h2 := (h.started hm).2
  have h3 := doneCount_le s.workers
  have h4 := h.bound
  have e : doneCount s.workers = s.workers.length := by omega
  exact ⟨by omega, all_done_of_doneCount _ e⟩

theorem Ctl.closed_all_done (n : Nat) (s : State) (h : Ctl n s) (hc : 0 < s.closes) :
    s.workers.length = n ∧ ∀ w ∈ s.workers, w = .done := by
  have hm : s.main ≠ .setup := fun e => by
    have := (h.setup e).2.2.2
    omega
  have hs : s.sentinel = .done := by
    cases hsen : s.sentinel with
    | unstarted => exact absurd hsen (h.started hm).1
    | waiting => have := h.waiting hsen; omega
    | closing => have := (h.closing hsen).1; omega
    | done => rfl
  exact h.all_done n s hm (h.closed hs).2

theorem stepHandTask_ctl (n : Nat) (i : Nat) (s s1 : State) (h : Ctl n s)
    (hs : stepHandTask i s = some s1) : Ctl n s1 := by
  unfold stepHandTask at hs
  split at hs
  · rename_i t rest hg hw
    simp only [Option.some.injEq] at hs
    subst hs
    have h1 := Ctl.set_gen n s (.sending rest) h (fun e => by rw [hg] at e; cases e)
    exact Ctl.set_worker n _ i .receiving (.fetching t) h1 hw rfl
      (fun e => by rcases e with e | e <;> cases e)
  · cases hs

theorem stepHandResult_ctl (n : Nat) (i : Nat) (s s1 : State) (h : Ctl n s)
    (hs : stepHandResult i s = some s1) : Ctl n s1 := by
  unfold stepHandResult at hs
  split at hs
  · rename_i r hw hm
    split at hs
    · simp only [Option.some.injEq] at hs
      subst hs
      have h1 := Ctl.set_received n s (s.received ++ [r]) h
      exact Ctl.set_worker n _ i (.sending r) .receiving h1 hw rfl
        (fun e => by rcases e with e | e <;> cases e)
    · cases hs
  · cases hs

theorem stepWorker_ctl {Doc : Type} (env : Env Doc) (cfg : Config) (n : Nat) (i : Nat)
    (s s1 : State) (h : Ctl n s) (hs : stepWorker env cfg i s = some s1) : Ctl n s1 := by
  unfold stepWorker at hs
  split at hs
  · cases hs
  · rename_i hw
    split at hs
    · rename_i hg
      simp only [Option.some.injEq] at hs
      subst hs
      exact Ctl.set_worker n _ i .receiving .leaving h hw rfl (fun _ => hg)
    · cases hs
  · rename_i t hw
    split at hs
    · simp only [Option.some.injEq] at hs
      subst hs
      exact Ctl.set_fatal n s _ h
    · rename_i r hr
      simp only [Option.some.injEq] at hs
      subst hs
      exact Ctl.set_worker n _ i (.fetching t) (.sending r) h hw rfl
        (fun e => by rcases e with e | e <;> cases e)
  · rename_i r hw
    split at hs
    · rename_i hc
      have hall := (h.closed_all_done n s hc).2 _ (List.getElem?_mem hw)
      cases hall
    · cases hs
  · rename_i hw
    have hm : s.main ≠ .setup := fun e => by
      have := (h.setup e).2.2.1
      rw [this] at hw
      simp at hw
    have hlt := doneCount_lt s.workers i .leaving hw (by simp)
    have hst := (h.started hm).2
    have hb := h.bound
    split at hs
    · omega
    · rename_i hwg
      simp only [Option.some.injEq] at hs
      subst hs
      have hset := doneCount_set s.workers i .leaving .done hw
      simp only [WorkerPc.doneW] at hset
      obtain ⟨h1, h2, h3, h4, h5, h6, h7, h8, h9, h10, h11⟩ := h
      refine ⟨fun e => absurd e hm, fun _ => ⟨(h2 hm).1, ?_⟩, fun k e => ?_, ?_, fun e => ?_,
        h6, fun e => ?_, fun e => ?_, ?_, h10, h11⟩
      · simp only; omega
      · simp only [List.length_set]; exact h3 k e
      · simp only [List.length_set]; exact h4
      · simp only [List.length_set]; exact h5 e
      · have := h7 e
        simp only at this ⊢
        omega
      · have := h8 e
        simp only at this ⊢
        omega
      · intro w hw2 hc2
        rcases List.mem_or_eq_of_mem_set hw2 with hw2 | hw2
        · exact h9 w hw2 hc2
        · exact h9 .leaving (List.getElem?_mem hw) (Or.inl rfl)
  · cases hs

theorem step_ctl {Doc : Type} (env : Env Doc) (cfg : Config) (a : Action) (s s1 : State)
    (h : Ctl cfg.concurrency s) (hs : step env cfg a s = some s1) : Ctl cfg.concurrency s1 := by
  unfold step at hs
  split at hs
  · cases hs
  · cases a with
    | mainStep => exact stepMain_ctl cfg s s1 h hs
    | genStep => exact stepGen_ctl env cfg _ s s1 h hs
    | handTask i => exact stepHandTask_ctl _ i s s1 h hs
    | workerStep i => exact stepWorker_ctl env cfg _ i s s1 h hs
    | handResult i => exact stepHandResult_ctl _ i s s1 h hs
    | sentinelStep => exact stepSentinel_ctl _ s s1 h hs

theorem run_ctl {Doc : Type} (env : Env Doc) (cfg : Config) (sched : List Action)
    (s s1 : State) (h : Ctl cfg.concurrency s) (hs : run env cfg sched s = some s1) :
    Ctl cfg.concurrency s1 := by
  induction sched generalizing s with
  | nil =>
    simp only [run, Option.some.injEq] at hs
    subst hs
    exact h
  | cons a rest ih =>
    simp only [run] at hs
    cases hst : step env cfg a s with
    | none => rw [hst] at hs; cases hs
    | some s2 =>
      rw [hst] at hs
      exact ih s2 (step_ctl env cfg a s s2 h hst) hs

/-! ## The pipeline: every action makes the measure smaller -/

theorem weight_set (ws : List WorkerPc) (i : Nat) (a b : WorkerPc) (h : ws[i]? = some a) :
    ((ws.set i b).map WorkerPc.weight).sum + a.weight =
      (ws.map WorkerPc.weight).sum + b.weight :=
  sum_map_set WorkerPc.weight ws i a b h

theorem stepMain_measure {Doc : Type} (env : Env Doc) (cfg : Config) (s s1 : State)
    (hr : s.status = .running) (hs : stepMain cfg s = some s1) :
    measure env cfg s1 < measure env cfg s := by
  obtain ⟨status, main, gen, workers, wg, sentinel, closes, received⟩ := s
  simp only at hr
  subst hr
  unfold stepMain at hs
  cases main with
  | setup =>
    simp only [Option.some.injEq] at hs
    subst hs
    simp only [measure, MainPc.weight, SentinelPc.weight]
    omega
  | spawning k =>
    simp only at hs
    split at hs
    · simp only [Option.some.injEq] at hs
      subst hs
      simp only [measure, MainPc.weight, List.map_append, List.sum_append, List.map_cons,
        List.map_nil, List.sum_cons, List.sum_nil, WorkerPc.weight]
      omega
    · simp only [Option.some.injEq] at hs
      subst hs
      simp only [measure, MainPc.weight]
      omega
  | ranging =>
    simp only at hs
    split at hs
    · simp only [Option.some.injEq] at hs
      subst hs
      simp only [measure, Status.weight]
      omega
    · cases hs

theorem stepGen_measure {Doc : Type} (env : Env Doc) (cfg : Config) (s s1 : State)
    (hr : s.status = .running) (hs : stepGen env cfg s = some s1) :
    measure env cfg s1 < measure env cfg s := by
  obtain ⟨status, main, gen, workers, wg, sentinel, closes, received⟩ := s
  simp only at hr
  subst hr
  unfold stepGen at hs
  cases gen with
  | fetching =>
    simp only at hs
    split at hs
    · simp only [Option.some.injEq] at hs
      subst hs
      simp only [measure, Status.weight]
      omega
    · rename_i ts hg
      simp only [Option.some.injEq] at hs
      subst hs
      have ht : taskTotal env cfg = ts.length := by simp [taskTotal, hg]
      simp only [measure, GenPc.weight, ht]
      omega
  | sending rest =>
    cases rest with
    | nil =>
      simp only [Option.some.injEq] at hs
      subst hs
      simp only [measure, GenPc.weight]
      omega
    | cons t r => cases hs
  | closed => cases hs

theorem stepSentinel_measure {Doc : Type} (env : Env Doc) (cfg : Config) (s s1 : State)
    (hr : s.status = .running) (hs : stepSentinel s = some s1) :
    measure env cfg s1 < measure env cfg s := by
  obtain ⟨status, main, gen, workers, wg, sentinel, closes, received⟩ := s
  simp only at hr
  subst hr
  unfold stepSentinel at hs
  cases sentinel with
  | unstarted => cases hs
  | waiting =>
    simp only at hs
    split at hs
    · simp only [Option.some.injEq] at hs
      subst hs
      simp only [measure, SentinelPc.weight]
      omega
    · cases hs
  | closing =>
    simp only at hs
    split at hs
    · simp only [Option.some.injEq] at hs
      subst hs
      simp only [measure, Status.weight]
      omega
    · simp only [Option.some.injEq] at hs
      subst hs
      simp only [measure, SentinelPc.weight]
      omega
  | done => cases hs

theorem stepHandTask_measure {Doc : Type} (env : Env Doc) (cfg : Config) (i : Nat)
    (s s1 : State) (hs : stepHandTask i s = some s1) :
    measure env cfg s1 < measure env cfg s := by
  unfold stepHandTask at hs
  split at hs
  · rename_i t rest hg hw
    simp only [Option.some.injEq] at hs
    subst hs
    have hset := weight_set s.workers i .receiving (.fetching t) hw
    simp only [WorkerPc.weight] at hset
    simp only [measure, hg, GenPc.weight, List.length_cons]
    omega
  · cases hs

theorem stepHandResult_measure {Doc : Type} (env : Env Doc) (cfg : Config) (i : Nat)
    (s s1 : State) (hs : stepHandResult i s = some s1) :
    measure env cfg s1 < measure env cfg s := by
  unfold stepHandResult at hs
  split at hs
  · rename_i r hw hm
    split at hs
    · simp only [Option.some.injEq] at hs
      subst hs
      have hset := weight_set s.workers i (.sending r) .receiving hw
      simp only [WorkerPc.weight] at hset
      simp only [measure]
      omega
    · cases hs
  · cases hs

theorem stepWorker_measure {Doc : Type} (env : Env Doc) (cfg : Config) (i : Nat)
    (s s1 : State) (hr : s.status = .running) (hs : stepWorker env cfg i s = some s1) :
    measure env cfg s1 < measure env cfg s := by
  unfold stepWorker at hs
  split at hs
  · cases hs
  · rename_i hw
    split at hs
    · simp only [Option.some.injEq] at hs
      subst hs
      have hset := weight_set s.workers i .receiving .leaving hw
      simp only [WorkerPc.weight] at hset
      simp only [measure]
      omega
    · cases hs
  · rename_i t hw
    split at hs
    · simp only [Option.some.injEq] at hs
      subst hs
      simp only [measure, hr, Status.weight]
      omega
    · rename_i r hp
      simp only [Option.some.injEq] at hs
      subst hs
      have hset := weight_set s.workers i (.fetching t) (.sending r) hw
      simp only [WorkerPc.weight] at hset
      simp only [measure]
      omega
  · split at hs
    · simp only [Option.some.injEq] at hs
      subst hs
      simp only [measure, hr, Status.weight]
      omega
    · cases hs
  · rename_i hw
    split at hs
    · simp only [Option.some.injEq] at hs
      subst hs
      simp only [measure, hr, Status.weight]
      omega
    · simp only [Option.some.injEq] at hs
      subst hs
      have hset := weight_set s.workers i .leaving .done hw
      simp only [WorkerPc.weight] at hset
      simp only [measure]
      omega
  · cases hs

theorem step_running {Doc : Type} (env : Env Doc) (cfg : Config) (a : Action) (s s1 : State)
    (hs : step env cfg a s = some s1) : s.status = .running := by
  unfold step at hs
  split at hs
  · cases hs
  · rename_i h
    exact not_not.1 h

theorem step_measure {Doc : Type} (env : Env Doc) (cfg : Config) (a : Action) (s s1 : State)
    (hs : step env cfg a s = some s1) : measure env cfg s1 < measure env cfg s := by
  have hr := step_running env cfg a s s1 hs
  unfold step at hs
  split at hs
  · cases hs
  · cases a with
    | mainStep => exact stepMain_measure env cfg s s1 hr hs
    | genStep => exact stepGen_measure env cfg s s1 hr hs
    | handTask i => exact stepHandTask_measure env cfg i s s1 hs
    | workerStep i => exact stepWorker_measure env cfg i s s1 hr hs
    | handResult i => exact stepHandResult_measure env cfg i s s1 hs
    | sentinelStep => exact stepSentinel_measure env cfg s s1 hr hs

theorem run_measure {Doc : Type} (env : Env Doc) (cfg : Config) (sched : List Action)
    (s s1 : State) (hs : run env cfg sched s = some s1) :
    sched.length + measure env cfg s1 ≤ measure env cfg s := by
  induction sched generalizing s with
  | nil =>
    simp only [run, Option.some.injEq] at hs
    subst hs
    simp
  | cons a rest ih =>
    simp only [run] at hs
    cases hst : step env cfg a s with
    | none => rw [hst] at hs; cases hs
    | some s2 =>
      rw [hst] at hs
      have h1 := ih s2 hs
      have h2 := step_measure env cfg a s s2 hst
      simp only [List.length_cons]
      omega

/-! ## The pipeline: a running process is never stuck -/

theorem progress_isSome {Doc : Type} (env : Env Doc) (cfg : Config) (s : State)
    (h : Ctl cfg.concurrency s) (hr : s.status = .running) :
    ∃ a, (step env cfg a s).isSome = true := by
  obtain ⟨status, main, gen, workers, wg, sentinel, closes, received⟩ := s
  simp only at hr
  subst hr
  cases main with
  | setup => exact ⟨.mainStep, by simp [step, stepMain]⟩
  | spawning k =>
    refine ⟨.mainStep, ?_⟩
    by_cases hk : k < cfg.concurrency <;> simp [step, stepMain, hk]
  | ranging =>
    by_cases hc : 0 < closes
    · exact ⟨.mainStep, by simp [step, stepMain, hc]⟩
    · have hc0 : closes = 0 := by omega
      subst hc0
      cases sentinel with
      | unstarted => exact absurd rfl (h.started (by simp)).1
      | closing => exact ⟨.sentinelStep, by simp [step, stepSentinel]⟩
      | done =>
        have := (h.closed rfl).1
        simp at this
      | waiting =>
        by_cases hw : wg = 0
        · exact ⟨.sentinelStep, by simp [step, stepSentinel, hw]⟩
        · have hst := (h.started (by simp)).2
          have hlen := h.ranging rfl
          simp only at hst hlen
          obtain ⟨i, w, hi, hne⟩ := exists_not_done workers (by omega)
          cases w with
          | receiving =>
            cases gen with
            | fetching =>
              refine ⟨.genStep, ?_⟩
              cases hg : generateTasks env cfg.url cfg.title <;> simp [step, stepGen, hg]
            | sending rest =>
              cases rest with
              | nil => exact ⟨.genStep, by simp [step, stepGen]⟩
              | cons t r => exact ⟨.handTask i, by simp [step, stepHandTask, hi]⟩
            | closed => exact ⟨.workerStep i, by simp [step, stepWorker, hi]⟩
          | fetching t =>
            refine ⟨.workerStep i, ?_⟩
            cases hp : processTask env cfg.description t <;> simp [step, stepWorker, hi, hp]
          | sending r => exact ⟨.handResult i, by simp [step, stepHandResult, hi]⟩
          | leaving => exact ⟨.workerStep i, by simp [step, stepWorker, hi, hw]⟩
          | done => exact absurd rfl hne

theorem progress {Doc : Type} (env : Env Doc) (cfg : Config) (s : State)
    (h : Ctl cfg.concurrency s) (hr : s.status = .running) :
    ∃ a s1, step env cfg a s = some s1 := by
  obtain ⟨a, ha⟩ := progress_isSome env cfg s h hr
  exact ⟨a, Option.isSome_iff_exists.1 ha⟩

theorem run_append {Doc : Type} (env : Env Doc) (cfg : Config) (xs ys : List Action)
    (s s1 s2 : State) (h1 : run env cfg xs s = some s1) (h2 : run env cfg ys s1 = some s2) :
    run env cfg (xs ++ ys) s = some s2 := by
  induction xs generalizing s with
  | nil =>
    simp only [run, Option.some.injEq] at h1
    subst h1
    exact h2
  | cons a rest ih =>
    simp only [run] at h1
    cases hst : step env cfg a s with
    | none => rw [hst] at h1; cases h1
    | some s3 =>
      rw [hst] at h1
      simp only [List.cons_append, run, hst]
      exact ih s3 h1

theorem run_to_end {Doc : Type} (env : Env Doc) (cfg : Config) (k : Nat) (s : State)
    (h : Ctl cfg.concurrency s) (hk : measure env cfg s ≤ k) :
    ∃ sched s1, run env cfg sched s = some s1 ∧ s1.status ≠ .running := by
  induction k generalizing s with
  | zero =>
    refine ⟨[], s, rfl, fun hr => ?_⟩
    simp only [measure, hr, Status.weight] at hk
    omega
  | succ k ih =>
    by_cases hr : s.status = .running
    · obtain ⟨a, s1, hs⟩ := progress env cfg s h hr
      have hm := step_measure env cfg a s s1 hs
      obtain ⟨sched, s2, hrun, hend⟩ := ih s1 (step_ctl env cfg a s s1 h hs) (by omega)
      refine ⟨a :: sched, s2, ?_, hend⟩
      simp only [run, hs]
      exact hrun
    · exact ⟨[], s, rfl, hr⟩

/-! ## The pipeline: where the Tasks are -/

theorem keyCount_cons (p q : Str × Str) (l : List (Str × Str)) :
    keyCount p (q :: l) = keyCount p l + if q = p then 1 else 0 := by
  simp [keyCount, List.countP_cons]

theorem keyCount_append (p : Str × Str) (l1 l2 : List (Str × Str)) :
    keyCount p (l1 ++ l2) = keyCount p l1 + keyCount p l2 := by
  simp [keyCount, List.countP_append]

theorem keyCount_nil (p : Str × Str) : keyCount p [] = 0 := rfl

theorem Data.holds_at_init (ts : List Task) : Data ts State.init := by
  constructor <;> simp [State.init, GenPc.pending, keyCount_nil]

theorem held_set (p : Str × Str) (ws : List WorkerPc) (i : Nat) (a b : WorkerPc)
    (h : ws[i]? = some a) :
    ((ws.set i b).map (WorkerPc.held p)).sum + a.held p =
      (ws.map (WorkerPc.held p)).sum + b.held p :=
  sum_map_set (WorkerPc.held p) ws i a b h

theorem held_all_done (p : Str × Str) (ws : List WorkerPc) (h : ∀ w ∈ ws, w = .done) :
    (ws.map (WorkerPc.held p)).sum = 0 := by
  induction ws with
  | nil => rfl
  | cons w rest ih =>
    have hw := h w (List.mem_cons_self _ _)
    subst hw
    have hr := ih (fun x hx => h x (List.mem_cons_of_mem _ hx))
    simp only [List.map_cons, List.sum_cons, hr, WorkerPc.held]

theorem Data.move_worker (ts : List Task) (s : State) (i : Nat) (a b : WorkerPc)
    (h : Data ts s) (hi : s.workers[i]? = some a) (hh : ∀ t, b = .fetching t → t ∈ ts)
    (hc : ∀ p, b.held p = a.held p) : Data ts { s with workers := s.workers.set i b } := by
  obtain ⟨d1, d2, d3, d4⟩ := h
  refine ⟨d1, ?_, ?_, d4⟩
  · intro w hw t e
    rcases List.mem_or_eq_of_mem_set hw with hw | hw
    · exact d2 w hw t e
    · subst hw
      exact hh t e
  · intro p
    have h1 := held_set p s.workers i a b hi
    have h2 := d3 p
    have h3 := hc p
    simp only at h2 ⊢
    omega

theorem stepMain_data (cfg : Config) (ts : List Task) (s s1 : State) (h : Data ts s)
    (hs : stepMain cfg s = some s1) : Data ts s1 := by
  obtain ⟨d1, d2, d3, d4⟩ := h
  unfold stepMain at hs
  split at hs
  · simp only [Option.some.injEq] at hs
    subst hs
    exact ⟨d1, d2, d3, d4⟩
  · split at hs
    · simp only [Option.some.injEq] at hs
      subst hs
      refine ⟨d1, ?_, ?_, d4⟩
      · intro w hw t e
        simp only [List.mem_append, List.mem_singleton] at hw
        rcases hw with hw | hw
        · exact d2 w hw t e
        · subst hw
          cases e
      · intro p
        have := d3 p
        simp only [List.map_append, List.sum_append, List.map_cons, List.map_nil,
          List.sum_cons, List.sum_nil, WorkerPc.held]
        omega
    · simp only [Option.some.injEq] at hs
      subst hs
      exact ⟨d1, d2, d3, d4⟩
  · split at hs
    · simp only [Option.some.injEq] at hs
      subst hs
      exact ⟨d1, d2, d3, fun _ e => (by cases e)⟩
    · cases hs

theorem stepSentinel_data (ts : List Task) (s s1 : State) (h : Data ts s)
    (hs : stepSentinel s = some s1) : Data ts s1 := by
  obtain ⟨d1, d2, d3, d4⟩ := h
  unfold stepSentinel at hs
  split at hs
  · cases hs
  · split at hs
    · simp only [Option.some.injEq] at hs
      subst hs
      exact ⟨d1, d2, d3, d4⟩
    · cases hs
  · split at hs
    · simp only [Option.some.injEq] at hs
      subst hs
      exact ⟨d1, d2, d3, fun _ e => (by cases e)⟩
    · simp only [Option.some.injEq] at hs
      subst hs
      exact ⟨d1, d2, d3, d4⟩
  · cases hs

theorem stepGen_data {Doc : Type} (env : Env Doc) (cfg : Config) (ts : List Task)
    (hg : generateTasks env cfg.url cfg.title = .ok ts) (s s1 : State) (h : Data ts s)
    (hs : stepGen env cfg s = some s1) : Data ts s1 := by
  obtain ⟨status, main, gen, workers, wg, sentinel, closes, received⟩ := s
  obtain ⟨d1, d2, d3, d4⟩ := h
  unfold stepGen at hs
  cases gen with
  | fetching =>
    simp only [hg, Option.some.injEq] at hs
    subst hs
    exact ⟨d1, d2, d3, d4⟩
  | sending rest =>
    cases rest with
    | nil =>
      simp only [Option.some.injEq] at hs
      subst hs
      exact ⟨d1, d2, d3, d4⟩
    | cons t r => cases hs
  | closed => cases hs

theorem stepHandTask_data (ts : List Task) (i : Nat) (s s1 : State) (h : Data ts s)
    (hs : stepHandTask i s = some s1) : Data ts s1 := by
  obtain ⟨status, main, gen, workers, wg, sentinel, closes, received⟩ := s
  obtain ⟨d1, d2, d3, d4⟩ := h
  unfold stepHandTask at hs
  split at hs
  · rename_i t rest hg hw
    simp only at hg hw
    subst hg
    simp only [Option.some.injEq] at hs
    subst hs
    simp only [GenPc.pending] at d1 d3
    refine ⟨fun x hx => d1 x (List.mem_cons_of_mem _ hx), ?_, ?_, d4⟩
    · intro w hw2 x e
      rcases List.mem_or_eq_of_mem_set hw2 with hw2 | hw2
      · exact d2 w hw2 x e
      · subst hw2
        injection e with e
        subst e
        exact d1 _ (List.mem_cons_self _ _)
    · intro p
      have h1 := held_set p workers i .receiving (.fetching t) hw
      have h2 := d3 p
      simp only [WorkerPc.held] at h1
      simp only [GenPc.pending]
      simp only [List.map_cons, keyCount_cons] at h2
      omega
  · cases hs

theorem stepHandResult_data (ts : List Task) (i : Nat) (s s1 : State) (h : Data ts s)
    (hs : stepHandResult i s = some s1) : Data ts s1 := by
  obtain ⟨status, main, gen, workers, wg, sentinel, closes, received⟩ := s
  obtain ⟨d1, d2, d3, d4⟩ := h
  unfold stepHandResult at hs
  split at hs
  · rename_i r hw hm
    simp only at hw
    split at hs
    · simp only [Option.some.injEq] at hs
      subst hs
      refine ⟨d1, ?_, ?_, d4⟩
      · intro w hw2 x e
        rcases List.mem_or_eq_of_mem_set hw2 with hw2 | hw2
        · exact d2 w hw2 x e
        · subst hw2
          cases e
      · intro p
        have h1 := held_set p workers i (.sending r) .receiving hw
        have h2 := d3 p
        simp only [WorkerPc.held] at h1
        simp only at h2
        simp only [List.map_append, keyCount_append, List.map_cons, List.map_nil,
          keyCount_cons, keyCount_nil]
        omega
    · cases hs
  · cases hs

theorem stepWorker_data {Doc : Type} (env : Env Doc) (cfg : Config) (ts : List Task)
    (hf : ∀ t ∈ ts, ∃ r, processTask env cfg.description t = .ok r) (i : Nat)
    (s s1 : State) (h : Data ts s) (hs : stepWorker env cfg i s = some s1) : Data ts s1 := by
  unfold stepWorker at hs
  split at hs
  · cases hs
  · rename_i hw
    split at hs
    · simp only [Option.some.injEq] at hs
      subst hs
      exact Data.move_worker ts s i .receiving .leaving h hw (fun _ e => by cases e)
        (fun _ => rfl)
    · cases hs
  · rename_i t hw
    have ht : t ∈ ts := h.held _ (List.getElem?_mem hw) t rfl
    obtain ⟨r0, hr0⟩ := hf t ht
    split at hs
    · rename_i err he
      rw [hr0] at he
      cases he
    · rename_i r hr
      simp only [Option.some.injEq] at hs
      subst hs
      have hk := processTask_key env cfg.description t r hr
      exact Data.move_worker ts s i (.fetching t) (.sending r) h hw (fun _ e => by cases e)
        (fun p => by simp only [WorkerPc.held, hk])
  · split at hs
    · simp only [Option.some.injEq] at hs
      subst hs
      exact ⟨h.pending, h.held, h.count, fun _ e => (by cases e)⟩
    · cases hs
  · rename_i hw
    split at hs
    · simp only [Option.some.injEq] at hs
      subst hs
      exact ⟨h.pending, h.held, h.count, fun _ e => (by cases e)⟩
    · simp only [Option.some.injEq] at hs
      subst hs
      have h1 := Data.move_worker ts s i .leaving .done h hw (fun _ e => by cases e)
        (fun _ => rfl)
      exact ⟨h1.pending, h1.held, h1.count, h1.noFatal⟩
  · cases hs

theorem step_data {Doc : Type} (env : Env Doc) (cfg : Config) (ts : List Task)
    (hg : generateTasks env cfg.url cfg.title = .ok ts)
    (hf : ∀ t ∈ ts, ∃ r, processTask env cfg.description t = .ok r)
    (a : Action) (s s1 : State) (h : Data ts s) (hs : step env cfg a s = some s1) :
    Data ts s1 := by
  unfold step at hs
  split at hs
  · cases hs
  · cases a with
    | mainStep => exact stepMain_data cfg ts s s1 h hs
    | genStep => exact stepGen_data env cfg ts hg s s1 h hs
    | handTask i => exact stepHandTask_data ts i s s1 h hs
    | workerStep i => exact stepWorker_data env cfg ts hf i s s1 h hs
    | handResult i => exact stepHandResult_data ts i s s1 h hs
    | sentinelStep => exact stepSentinel_data ts s s1 h hs

theorem run_data {Doc : Type} (env : Env Doc) (cfg : Config) (ts : List Task)
    (hg : generateTasks env cfg.url cfg.title = .ok ts)
    (hf : ∀ t ∈ ts, ∃ r, processTask env cfg.description t = .ok r)
    (sched : List Action) (s s1 : State) (h : Data ts s)
    (hs : run env cfg sched s = some s1) : Data ts s1 := by
  induction sched generalizing s with
  | nil =>
    simp only [run, Option.some.injEq] at hs
    subst hs
    exact h
  | cons a rest ih =>
    simp only [run] at hs
    cases hst : step env cfg a s with
    | none => rw [hst] at hs; cases hs
    | some s2 =>
      rw [hst] at hs
      exact ih s2 (step_data env cfg ts hg hf a s s2 h hst) hs

theorem exited_received (n : Nat) (ts : List Task) (s : State) (hn : 1 ≤ n)
    (hc : Ctl n s) (hd : Data ts s) (he : s.status = .exited) :
    s.received.length = ts.length ∧ (s.received.map Result.key).Perm (ts.map Task.key) := by
  obtain ⟨hlen, hall⟩ := hc.closed_all_done n s (hc.exited he)
  have hgen : s.gen = .closed := by
    cases hw : s.workers with
    | nil => rw [hw] at hlen; simp at hlen; omega
    | cons w rest =>
      have hm : w ∈ s.workers := by rw [hw]; exact List.mem_cons_self _ _
      exact hc.left w hm (Or.inr (hall w hm))
  have hperm : (s.received.map Result.key).Perm (ts.map Task.key) := by
    rw [List.perm_iff_count]
    intro p
    have h1 := hd.count p
    have h2 := held_all_done p s.workers hall
    rw [hgen] at h1
    simp only [GenPc.pending, List.map_nil, keyCount_nil] at h1
    show keyCount p (s.received.map Result.key) = keyCount p (ts.map Task.key)
    omega
  have := hperm.length_eq
  simp only [List.length_map] at this
  exact ⟨this, hperm⟩

/-! ## The pipeline: the two claims -/

theorem Ctl.closes_le (n : Nat) (s : State) (h : Ctl n s) : s.closes ≤ 1 := by
  cases hsen : s.sentinel with
  | unstarted =>
    by_cases hm : s.main = .setup
    · have := (h.setup hm).2.2.2
      omega
    · exact absurd hsen (h.started hm).1
  | waiting => have := h.waiting hsen; omega
  | closing => have := (h.closing hsen).1; omega
  | done => have := (h.closed hsen).1; omega

theorem measure_init {Doc : Type} (env : Env Doc) (cfg : Config) (ts : List Task)
    (hg : generateTasks env cfg.url cfg.title = .ok ts) :
    measure env cfg State.init = 3 * cfg.concurrency + 4 * ts.length + 9 := by
  have ht : taskTotal env cfg = ts.length := by simp [taskTotal, hg]
  simp only [measure, State.init, Status.weight, MainPc.weight, GenPc.weight, ht,
    SentinelPc.weight, List.map_nil, List.sum_nil]
  omega

/-- C9: in every state an execution of the pipeline reaches, whatever the
schedule: `wg.Add` sets the counter to the number of workers; from then on
the counter plus the number of workers that have run `wg.Done()` and returned
is that number, so each worker decrements it once, on leaving its loop;
`closeResults` is past `wg.Wait()` only with the counter at zero; once
`close(results)` has run all the workers are started and have returned; it
has run at most once; and nothing has panicked, so no worker has sent on the
closed channel. -/
theorem results_closed_after_all_workers {Doc : Type} (env : Env Doc) (cfg : Config)
    (sched : List Action) (s : State) (h : run env cfg sched State.init = some s) :
    (stepMain cfg State.init).map State.wg = some cfg.concurrency ∧
    (s.main ≠ .setup → s.wg + doneCount s.workers = cfg.concurrency) ∧
    (s.sentinel = .closing ∨ s.sentinel = .done → s.wg = 0) ∧
    (0 < s.closes → s.workers.length = cfg.concurrency ∧ ∀ w ∈ s.workers, w = .done) ∧
    s.closes ≤ 1 ∧
    (∀ m, s.status ≠ .panicked m) := by
  have hc := run_ctl env cfg sched State.init s (Ctl.holds_init _) h
  refine ⟨by simp [stepMain, State.init], fun hm => (hc.started hm).2, ?_,
    fun h0 => hc.closed_all_done _ s h0, hc.closes_le _ s, hc.noPanic⟩
  rintro (e | e)
  · exact (hc.closing e).2
  · exact (hc.closed e).2

theorem results_closed_after_all_workers_witness :
    run demoEnv demoCfg demoSchedule State.init = some demoFinal ∧
    ((stepMain demoCfg State.init).map State.wg = some demoCfg.concurrency ∧
    (demoFinal.main ≠ .setup →
      demoFinal.wg + doneCount demoFinal.workers = demoCfg.concurrency) ∧
    (demoFinal.sentinel = .closing ∨ demoFinal.sentinel = .done → demoFinal.wg = 0) ∧
    (0 < demoFinal.closes →
      demoFinal.workers.length = demoCfg.concurrency ∧ ∀ w ∈ demoFinal.workers, w = .done) ∧
    demoFinal.closes ≤ 1 ∧
    (∀ m, demoFinal.status ≠ .panicked m)) :=
  ⟨by decide,
    results_closed_after_all_workers demoEnv demoCfg demoSchedule demoFinal (by decide)⟩

/-- C10: with at least one worker, a seed page that yields the Tasks `ts` and
no failing fetch, every execution of the pipeline, whatever the schedule,
never ends by `log.Fatal` or a panic, is never stuck while the process runs,
has at most `3 * concurrency + 4 * N + 9` actions, and when `main` has
returned it has received exactly `N` Results whose `(url, title)` pairs are
those of the Tasks, each as often as it was sent; and there is an execution
in which `main` returns. -/
theorem every_task_one_result {Doc : Type} (env : Env Doc) (cfg : Config) (ts : List Task)
    (hn : 1 ≤ cfg.concurrency) (hg : generateTasks env cfg.url cfg.title = .ok ts)
    (hf : ∀ t ∈ ts, ∃ sel, fetchRequest env t.Url cfg.description = .ok sel) :
    (∀ sched s, run env cfg sched State.init = some s →
      (∀ m, s.status ≠ .fatal m) ∧ (∀ m, s.status ≠ .panicked m) ∧
      (s.status = .running → ∃ a s1, step env cfg a s = some s1) ∧
      sched.length ≤ 3 * cfg.concurrency + 4 * ts.length + 9 ∧
      (s.status = .exited →
        s.received.length = ts.length ∧
        (s.received.map Result.key).Perm (ts.map Task.key))) ∧
    (∃ sched s, run env cfg sched State.init = some s ∧ s.status = .exited) := by
  have hp : ∀ t ∈ ts, ∃ r, processTask env cfg.description t = .ok r := by
    intro t ht
    obtain ⟨sel, hsel⟩ := hf t ht
    exact ⟨_, processTask_ok env cfg.description t sel hsel⟩
  have hall : ∀ sched s, run env cfg sched State.init = some s →
      Ctl cfg.concurrency s ∧ Data ts s := fun sched s h =>
    ⟨run_ctl env cfg sched State.init s (Ctl.holds_init _) h,
      run_data env cfg ts hg hp sched State.init s (Data.holds_at_init ts) h⟩
  constructor
  · intro sched s h
    obtain ⟨hc, hd⟩ := hall sched s h
    refine ⟨hd.noFatal, hc.noPanic, progress env cfg s hc, ?_,
      exited_received _ ts s hn hc hd⟩
    have := run_measure env cfg sched State.init s h
    rw [measure_init env cfg ts hg] at this
    omega
  · obtain ⟨sched, s, hrun, hend⟩ :=
      run_to_end env cfg (measure env cfg State.init) State.init (Ctl.holds_init _) (le_refl _)
    obtain ⟨hc, hd⟩ := hall sched s hrun
    refine ⟨sched, s, hrun, ?_⟩
    cases hst : s.status with
    | running => exact absurd hst hend
    | exited => rfl
    | fatal m => exact absurd hst (hd.noFatal m)
    | panicked m => exact absurd hst (hc.noPanic m)

theorem every_task_one_result_witness :
    run demoEnv demoCfg demoSchedule State.init = some demoFinal ∧
    demoFinal.received.length = demoTasks.length ∧
    (demoFinal.received.map Result.key).Perm (demoTasks.map Task.key) :=
  ⟨by decide,
    ((every_task_one_result demoEnv demoCfg demoTasks (by decide) (by rfl)
      (by
        intro t ht
        simp only [demoTasks, List.mem_cons, List.mem_singleton, List.not_mem_nil,
          or_false] at ht
        rcases ht with e | e <;> subst e <;> exact ⟨_, rfl⟩)).1
      demoSchedule demoFinal (by decide)).2.2.2.2 rfl⟩

end HackerNoon
